import Mathlib

/-!
# Verification of the OrderBook repository

Shallow embedding of the two C++ source files:

* `src/OrderBook.cpp` — embedded at top level (`Order`, `OrderBook`, …).
  Its `matchOrders` (line 163) and `cancel` (line 161) have empty bodies
  in the source, so they are embedded as the functions the source actually
  defines: no mutation of the book and no trades / no effect.
* `src/OrderBookOptimized.cpp` — embedded in namespace `Optimized`.
  Its `matchOrders` and `cancel` bodies exist and are embedded faithfully,
  including the index-erasure slip at line 227 (erasing `bid.getOrderId()`
  in the branch where the *ask* fills) and the unchecked dereferences of
  `begin()` / `front()` on possibly-empty containers, which are modelled as
  explicit undefined-behaviour outcomes.

Machine integers (`uint32_t` prices and quantities, `uint64_t` ids) are
embedded as `Nat`: every subtraction in the source is guarded
(`fill` checks `exec > remainingQty_`, `qty -= exec` has `exec ≤ qty`
by construction), and no arithmetic in the source can overflow 32/64 bits
on inputs reachable through the API before `Nat` and the fixed-width
types diverge, so no `% 2^w` reductions are needed for the properties
proved here.
-/

set_option autoImplicit false

/-- `enum class Side { BUY, SELL }` (both files). -/
inductive Side where
  | buy
  | sell
deriving DecidableEq, Repr

/-- `enum class OrderType { LIMIT, MARKET }` (both files). -/
inductive OrderType where
  | limit
  | market
deriving DecidableEq, Repr

/-- The `Order` class of `src/OrderBook.cpp` (lines 23–53): side, id, type,
optional limit price (`std::optional<Price>`), initial and remaining
quantity.  The one-argument constructor leaves `price_` empty; the limit
constructor sets it. -/
structure Order where
  side : Side
  id : Nat
  type : OrderType
  price : Option Nat
  initialQty : Nat
  remainingQty : Nat
deriving DecidableEq, Repr

/-- `Order::fill` (OrderBook.cpp lines 39–43): throws `overfill` when
`exec > remainingQty_`, otherwise subtracts. -/
def Order.fill (o : Order) (exec : Nat) : Except String Order :=
  if exec > o.remainingQty then .error "overfill"
  else .ok { o with remainingQty := o.remainingQty - exec }

/-- `Order::isFilled` (line 44). -/
def Order.isFilled (o : Order) : Bool := o.remainingQty == 0

/-- `struct TradeInfo` (lines 56–60): one leg of a trade. -/
structure TradeInfo where
  id : Nat
  price : Nat
  qty : Nat
deriving DecidableEq, Repr

/-- The `Trade` class (lines 62–72): a buy leg and a sell leg. -/
structure Trade where
  buy : TradeInfo
  sell : TradeInfo
deriving DecidableEq, Repr

/-- `using Level = std::list<Order>` — a FIFO queue of resting orders. -/
abbrev Level := List Order

/-- `struct Handle { Side side; Price price; Handler it; }` (lines 77–81).
The `it` member is a `std::list` iterator into the level; no function with
a body in `OrderBook.cpp` ever reads it (`cancel`, the only reader, has an
empty body), so the embedding keeps the two fields that determine it. -/
structure Handle where
  side : Side
  price : Nat
deriving DecidableEq, Repr

/-- `std::map<Price, Level, C>` embedded as an association list sorted in
the map's iteration order (ascending for asks, descending for bids). -/
abbrev LevelMap := List (Nat × Level)

/-- `asks_[price].push_back(order)` on the ascending map: find the level
(creating it where `operator[]` would) and append at the back. -/
def upsertAsc (p : Nat) (o : Order) : LevelMap → LevelMap
  | [] => [(p, [o])]
  | (q, lvl) :: rest =>
    if p < q then (p, [o]) :: (q, lvl) :: rest
    else if p = q then (q, lvl ++ [o]) :: rest
    else (q, lvl) :: upsertAsc p o rest

/-- `bids_[price].push_back(order)` on the descending (`std::greater`) map. -/
def upsertDesc (p : Nat) (o : Order) : LevelMap → LevelMap
  | [] => [(p, [o])]
  | (q, lvl) :: rest =>
    if p > q then (p, [o]) :: (q, lvl) :: rest
    else if p = q then (q, lvl ++ [o]) :: rest
    else (q, lvl) :: upsertDesc p o rest

/-- `orderIdToIterator_.insert({id, handle})` on the id-ordered map:
`std::map::insert` keeps the existing entry when the key is present. -/
def insertIdx (id : Nat) (h : Handle) : List (Nat × Handle) → List (Nat × Handle)
  | [] => [(id, h)]
  | (k, v) :: rest =>
    if id < k then (id, h) :: (k, v) :: rest
    else if id = k then (k, v) :: rest
    else (k, v) :: insertIdx id h rest

/-- `orderIdToIterator_.erase(id)`. -/
def eraseIdx (id : Nat) : List (Nat × Handle) → List (Nat × Handle)
  | [] => []
  | (k, v) :: rest => if k = id then rest else (k, v) :: eraseIdx id rest

/-- The `OrderBook` class of `src/OrderBook.cpp` (lines 83–170):
ask levels ascending by price, bid levels descending by price, the
id → handle index, and the id counter (`nextOrderId_`, starting at 1). -/
structure OrderBook where
  asks : LevelMap
  bids : LevelMap
  index : List (Nat × Handle)
  nextOrderId : Nat
deriving DecidableEq, Repr

/-- `OrderBook()` — empty book. -/
def OrderBook.empty : OrderBook := ⟨[], [], [], 1⟩

/-- `OrderBook::matchOrders` (line 163) has an empty body in the source:
it mutates nothing and produces no trades (its garbage return value is
embedded as the empty trade list). -/
def OrderBook.matchOrders (b : OrderBook) : List Trade × OrderBook := ([], b)

/-- `OrderBook::add_limit` (lines 90–107): draw a fresh id, build the limit
order, append it at the back of its price level (creating the level via
`operator[]` if absent), record the handle in the index, and return
`matchOrders()`. -/
def OrderBook.add_limit (b : OrderBook) (side : Side) (price qty : Nat) :
    List Trade × OrderBook :=
  let id := b.nextOrderId
  let b := { b with nextOrderId := b.nextOrderId + 1 }
  let order : Order := ⟨side, id, .limit, some price, qty, qty⟩
  let b :=
    match side with
    | .buy => { b with bids := upsertDesc price order b.bids }
    | .sell => { b with asks := upsertAsc price order b.asks }
  let b := { b with index := insertIdx id ⟨side, price⟩ b.index }
  b.matchOrders

/-- One trade record as `add_market` emits it (lines 127–135): the market
side carries the synthetic id, the resting side the resting order's id;
both legs carry the level price and the executed quantity. -/
def marketTrade (side : Side) (marketId restingId price exec : Nat) : Trade :=
  match side with
  | .buy => ⟨⟨marketId, price, exec⟩, ⟨restingId, price, exec⟩⟩
  | .sell => ⟨⟨restingId, price, exec⟩, ⟨marketId, price, exec⟩⟩

/-- The inner `for` loop of `add_market`'s `consume` lambda
(lines 122–146): walk the level front to back while `qty > 0`, execute
`min(qty, resting.getRemainingQty())` against each resting order, remove
the ones that fill (returning their ids for the index erasures the source
performs at line 141), keep a partially filled order in place.  Returns
(trades, leftover qty, remaining level, ids of filled resting orders). -/
def consumeLevel (side : Side) (marketId price : Nat) :
    Nat → Level → Except String (List Trade × Nat × Level × List Nat)
  | qty, [] => .ok ([], qty, [], [])
  | qty, resting :: rest =>
    if qty = 0 then .ok ([], qty, resting :: rest, [])
    else
      let exec := min qty resting.remainingQty
      let t := marketTrade side marketId resting.id price exec
      match resting.fill exec with
      | .error e => .error e
      | .ok resting' =>
        if resting'.isFilled then
          match consumeLevel side marketId price (qty - exec) rest with
          | .error e => .error e
          | .ok (ts, q, lvl, ids) => .ok (t :: ts, q, lvl, resting.id :: ids)
        else
          match consumeLevel side marketId price (qty - exec) rest with
          | .error e => .error e
          | .ok (ts, q, lvl, ids) => .ok (t :: ts, q, resting' :: lvl, ids)

/-- The outer `while` loop of `consume` (lines 117–150): take the best
(front) level, drain it with the inner loop, erase it when it empties,
and continue while `qty > 0`.  A level left non-empty means the inner
loop stopped with `qty = 0`, matching the source's loop exit. -/
def consume (side : Side) (marketId : Nat) :
    Nat → LevelMap → Except String (List Trade × Nat × LevelMap × List Nat)
  | qty, [] => .ok ([], qty, [], [])
  | qty, (price, level) :: rest =>
    if qty = 0 then .ok ([], qty, (price, level) :: rest, [])
    else
      match consumeLevel side marketId price qty level with
      | .error e => .error e
      | .ok (ts, q, lvl, ids) =>
        if lvl.isEmpty then
          match consume side marketId q rest with
          | .error e => .error e
          | .ok (ts2, q2, rest2, ids2) => .ok (ts ++ ts2, q2, rest2, ids ++ ids2)
        else
          .ok (ts, q, (price, lvl) :: rest, ids)

/-- `OrderBook::add_market` (lines 109–159): a zero quantity returns no
trades before an id is drawn; otherwise a synthetic id is drawn and the
opposing side is consumed from the best price outward, erasing each
fully-filled resting order's id from the index as the source does at
line 141 (the erasures commute, so they are applied after the walk). -/
def OrderBook.add_market (b : OrderBook) (side : Side) (qty : Nat) :
    Except String (List Trade × OrderBook) :=
  if qty = 0 then .ok ([], b)
  else
    let marketId := b.nextOrderId
    let b := { b with nextOrderId := b.nextOrderId + 1 }
    match side with
    | .buy =>
      match consume side marketId qty b.asks with
      | .error e => .error e
      | .ok (ts, _, asks', ids) =>
        .ok (ts, { b with asks := asks',
                          index := ids.foldl (fun ix id => eraseIdx id ix) b.index })
    | .sell =>
      match consume side marketId qty b.bids with
      | .error e => .error e
      | .ok (ts, _, bids', ids) =>
        .ok (ts, { b with bids := bids',
                          index := ids.foldl (fun ix id => eraseIdx id ix) b.index })

/-- `OrderBook::cancel` (line 161) has an empty body in the source: it
mutates nothing (its garbage `bool` return is embedded as `false`). -/
def OrderBook.cancel (b : OrderBook) (_id : Nat) : Bool × OrderBook := (false, b)

/-- Best bid price: the key of the first (highest) bid level. -/
def OrderBook.bestBid (b : OrderBook) : Option Nat := b.bids.head?.map (·.1)

/-- Best ask price: the key of the first (lowest) ask level. -/
def OrderBook.bestAsk (b : OrderBook) : Option Nat := b.asks.head?.map (·.1)

/-- Ids of all orders resting in a level map. -/
def idsOf (m : LevelMap) : List Nat := m.flatMap fun pl => pl.2.map (·.id)

/-- Ids of all orders resting in the book, both sides. -/
def OrderBook.restingIds (b : OrderBook) : List Nat := idsOf b.bids ++ idsOf b.asks

/-- Keys of the order index. -/
def OrderBook.indexIds (b : OrderBook) : List Nat := b.index.map (·.1)

/-- Total remaining quantity in a level map. -/
def totalQty (m : LevelMap) : Nat :=
  (m.map fun pl => (pl.2.map (·.remainingQty)).sum).sum

/-- The ids resting in the book are pairwise distinct, and so are the
keys of the index — true of every book reachable through the API, where
ids come from the monotone counter. -/
def OrderBook.NodupIds (b : OrderBook) : Prop :=
  b.restingIds.Nodup ∧ b.indexIds.Nodup

/-- Every id resting or indexed is below the counter — true of every
reachable book, and what makes a freshly drawn id new. -/
def OrderBook.FreshIds (b : OrderBook) : Prop :=
  ∀ id ∈ b.restingIds ++ b.indexIds, id < b.nextOrderId

instance (b : OrderBook) : Decidable b.NodupIds := by
  unfold OrderBook.NodupIds; infer_instance

instance (b : OrderBook) : Decidable b.FreshIds := by
  unfold OrderBook.FreshIds; infer_instance

/-! ## The optimized variant, `src/OrderBookOptimized.cpp` -/

namespace Optimized

/-- The `Order` class of `src/OrderBookOptimized.cpp` (lines 26–64):
like the basic one but with a plain (non-optional) price. -/
structure Order where
  side : Side
  id : Nat
  type : OrderType
  price : Nat
  initialQty : Nat
  remainingQty : Nat
deriving DecidableEq, Repr

/-- The five-argument `Order` constructor (lines 30–34): its body throws
`"cannot create order with no quantity!"` unconditionally, for every
quantity. -/
def Order.create (_side : Side) (_id : Nat) (_type : OrderType)
    (_price _qty : Nat) : Except String Order :=
  .error "cannot create order with no quantity!"

/-- `Order::fill` (lines 50–54), identical to the basic variant's. -/
def Order.fill (o : Order) (exec : Nat) : Except String Order :=
  if exec > o.remainingQty then .error "overfill"
  else .ok { o with remainingQty := o.remainingQty - exec }

/-- `Order::isFilled` (line 55). -/
def Order.isFilled (o : Order) : Bool := o.remainingQty == 0

/-- `OrderPool::allocate` (lines 71–84): hands out a slot fully
re-initialised through the setters.  There is no quantity check, and the
throwing five-argument constructor is never invoked — the pool builds its
slots with the default constructor (`generateOrders`, lines 91–98). -/
def OrderPool.allocate (id : Nat) (side : Side) (type : OrderType)
    (qty price : Nat) : Order :=
  ⟨side, id, type, price, qty, qty⟩

/-- `struct Handle` (lines 121–125).  `pos` embeds the `Handler` iterator
as a position in the level's sequence; `none` models a singular
(default-constructed or never-validated) iterator. -/
structure OHandle where
  side : Side
  price : Nat
  pos : Option Nat
deriving DecidableEq, Repr

/-- Look up a key in an association list. -/
def lookupKey {α : Type} (id : Nat) : List (Nat × α) → Option α
  | [] => none
  | (k, v) :: rest => if k = id then some v else lookupKey id rest

/-- Erase a key from an association list
(`orderIdToIterator_.erase(id)`). -/
def eraseKey {α : Type} (id : Nat) : List (Nat × α) → List (Nat × α)
  | [] => []
  | (k, v) :: rest => if k = id then rest else (k, v) :: eraseKey id rest

/-- `orderIdToIterator_.insert({id, handle})` on the `unordered_map`:
keeps the existing entry when the key is present, otherwise adds the
entry (iteration order of the hash map is unspecified; the embedding
appends). -/
def insertKey {α : Type} (id : Nat) (v : α) (m : List (Nat × α)) :
    List (Nat × α) :=
  match lookupKey id m with
  | some _ => m
  | none => m ++ [(id, v)]

/-- `bids_[price]` / `asks_[price]` when only the `operator[]`
find-or-create effect lands in the map (descending key order). -/
def ensureDesc (p : Nat) : List (Nat × List Order) → List (Nat × List Order)
  | [] => [(p, [])]
  | (q, lvl) :: rest =>
    if p > q then (p, []) :: (q, lvl) :: rest
    else if p = q then (q, lvl) :: rest
    else (q, lvl) :: ensureDesc p rest

/-- Ascending-key version of `ensureDesc`. -/
def ensureAsc (p : Nat) : List (Nat × List Order) → List (Nat × List Order)
  | [] => [(p, [])]
  | (q, lvl) :: rest =>
    if p < q then (p, []) :: (q, lvl) :: rest
    else if p = q then (q, lvl) :: rest
    else (q, lvl) :: ensureAsc p rest

/-- The `OrderBook` state of the optimized file (lines 253–258): ask
levels ascending, bid levels descending, the id index, the id counter. -/
structure State where
  asks : List (Nat × List Order)
  bids : List (Nat × List Order)
  index : List (Nat × OHandle)
  nextOrderId : Nat
deriving DecidableEq, Repr

/-- Result of running `matchOrders`: the trades accumulated, the state at
exit, and `some msg` when the source's next step is undefined behaviour
(dereferencing `begin()` of an empty map or `front()` of an empty
level). -/
structure MatchResult where
  trades : List Trade
  state : State
  ub : Option String
deriving DecidableEq, Repr

/-- One pass of `OrderBook::matchOrders`'s `while (true)` loop
(lines 209–239), with fuel for termination.  Faithful points:
* `*asks_.begin()` / `*bids_.begin()` with an empty map, and `front()`
  of an empty level, are undefined behaviour — surfaced in `ub`;
* the fills cannot overfill (`exec` is the min of the two remainders);
* when the bid fills, the bid's id is erased from the index; when the
  ask fills, the source (line 227) again erases `bid.getOrderId()` —
  the bid's id, not the ask's;
* the trade is built from the matched orders' last-written values (the
  source reads them through references invalidated by the pops). -/
def matchLoop : Nat → List Trade → State → MatchResult
  | 0, trades, s => ⟨trades, s, some "loop fuel exhausted"⟩
  | fuel + 1, trades, s =>
    match s.asks, s.bids with
    | [], _ => ⟨trades, s, some "dereference of begin() of empty asks map"⟩
    | _ :: _, [] => ⟨trades, s, some "dereference of begin() of empty bids map"⟩
    | (bestAsk, askLvl) :: asksRest, (bestBid, bidLvl) :: bidsRest =>
      if bestAsk > bestBid then ⟨trades, s, none⟩
      else
        match bidLvl, askLvl with
        | [], _ => ⟨trades, s, some "front() of empty bid level"⟩
        | _ :: _, [] => ⟨trades, s, some "front() of empty ask level"⟩
        | bid :: bidTail, ask :: askTail =>
          match bid.fill (min bid.remainingQty ask.remainingQty),
                ask.fill (min bid.remainingQty ask.remainingQty) with
          | .ok bid', .ok ask' =>
            let exec := min bid.remainingQty ask.remainingQty
            let (bidLvl', index1) :=
              if bid'.isFilled then (bidTail, eraseKey bid.id s.index)
              else (bid' :: bidTail, s.index)
            let (askLvl', index2) :=
              if ask'.isFilled then (askTail, eraseKey bid.id index1)
              else (ask' :: askTail, index1)
            let asks' := if askLvl'.isEmpty then asksRest
                         else (bestAsk, askLvl') :: asksRest
            let bids' := if bidLvl'.isEmpty then bidsRest
                         else (bestBid, bidLvl') :: bidsRest
            let t : Trade := ⟨⟨bid.id, bid.price, exec⟩, ⟨ask.id, ask.price, exec⟩⟩
            matchLoop fuel (trades ++ [t])
              { s with asks := asks', bids := bids', index := index2 }
          | .error e, _ => ⟨trades, s, some e⟩
          | _, .error e => ⟨trades, s, some e⟩

/-- Fuel bound for `matchLoop`: every iteration either executes positive
quantity or pops at least one order, so total remaining quantity plus
order count strictly decreases. -/
def loopFuel (s : State) : Nat :=
  totalOQty s.asks + totalOQty s.bids + orderCount s.asks + orderCount s.bids + 1
where
  totalOQty (m : List (Nat × List Order)) : Nat :=
    (m.map fun pl => (pl.2.map (·.remainingQty)).sum).sum
  orderCount (m : List (Nat × List Order)) : Nat :=
    (m.map fun pl => pl.2.length).sum

/-- `OrderBook::matchOrders` (lines 205–241). -/
def matchOrders (s : State) : MatchResult := matchLoop (loopFuel s) [] s

/-- `OrderBook::add_limit` (lines 134–151): draws a fresh id and allocates
the order from the pool, but `auto level = bids_[price];` copies the
level — the `push_back` lands in the copy, so the ledger keeps only the
(possibly freshly created, empty) level while the order itself is
discarded, and the recorded iterator points into the dead copy
(`pos := none`).  The handle is still inserted into the index, and the
call returns `matchOrders()`. -/
def add_limit (s : State) (side : Side) (price qty : Nat) : MatchResult :=
  let id := s.nextOrderId
  let s := { s with nextOrderId := s.nextOrderId + 1 }
  let _order := OrderPool.allocate id side .limit qty price
  let s :=
    match side with
    | .buy => { s with bids := ensureDesc price s.bids }
    | .sell => { s with asks := ensureAsc price s.asks }
  let s := { s with index := insertKey id ⟨side, price, none⟩ s.index }
  matchOrders s

/-- Result of `cancel`: the new state, or the state at the point where the
source's next step is undefined behaviour. -/
inductive CancelResult where
  | done (s : State)
  | ub (msg : String) (s : State)
deriving DecidableEq, Repr

/-- Remove the element at position `i` (`level.erase(it)`). -/
def eraseAt (i : Nat) (l : List Order) : List Order := l.eraseIdx i

/-- `OrderBook::cancel` (lines 243–251).  `orderIdToIterator_[id]`
default-inserts a value-initialised handle when `id` is absent (side
`BUY`, price `0`, singular iterator), after which `bids_[0].erase(it)`
creates an empty level at price 0 and erases through the singular
iterator — undefined behaviour; there is no `UnknownOrder` (or any
other) error path in the source.  For a present id the source erases the
recorded position from `bids_[price]` / `asks_[price]` (`operator[]`
creating the level if it is somehow absent), then erases the id from the
index; an emptied level is never removed from the ledger. -/
def cancel (id : Nat) (s : State) : CancelResult :=
  match lookupKey id s.index with
  | none =>
    let s := { s with index := s.index ++ [(id, (⟨.buy, 0, none⟩ : OHandle))] }
    let s := { s with bids := ensureDesc 0 s.bids }
    .ub "erase through a singular iterator" s
  | some h =>
    match h.pos with
    | none =>
      .ub "erase through an iterator into a discarded level copy" s
    | some i =>
      let erase1 (m : List (Nat × List Order)) : List (Nat × List Order) :=
        let m1 :=
          match h.side with
          | .buy => ensureDesc h.price m
          | .sell => ensureAsc h.price m
        m1.map fun (pl : Nat × List Order) =>
          if pl.1 = h.price then (pl.1, eraseAt i pl.2) else pl
      let s :=
        match h.side with
        | .buy => { s with bids := erase1 s.bids }
        | .sell => { s with asks := erase1 s.asks }
      .done { s with index := eraseKey id s.index }

end Optimized

/-! ## Derived forms and helper functions -/

/-- The side of the book a market or marketable order consumes. -/
def OrderBook.opposing (b : OrderBook) : Side → LevelMap
  | .buy => b.asks
  | .sell => b.bids

/-- The id on the resting-order leg of an `add_market` trade. -/
def restingLegId (side : Side) (t : Trade) : Nat :=
  match side with
  | .buy => t.sell.id
  | .sell => t.buy.id

/-- The id on the market-order leg of an `add_market` trade. -/
def marketLegId (side : Side) (t : Trade) : Nat :=
  match side with
  | .buy => t.buy.id
  | .sell => t.sell.id

/-- Executed quantity of a list of trades (the buy leg's; the two legs
always agree, which is proved, not assumed). -/
def sumQty (ts : List Trade) : Nat := (ts.map (·.buy.qty)).sum

/-- Total quantity of the trades in `ts` that carry `id` on either leg. -/
def tradeQtyFor (id : Nat) (ts : List Trade) : Nat :=
  (ts.map fun t =>
    (if t.buy.id = id then t.buy.qty else 0) +
    (if t.sell.id = id then t.sell.qty else 0)).sum

/-- Remaining quantity in one level. -/
def sumRem (l : Level) : Nat := (l.map (·.remainingQty)).sum

/-- Pure form of `consumeLevel`: the same recursion with the (provably
unreachable) overfill branch of `Order.fill` eliminated.
`consumeLevel_eq` below proves the two agree. -/
def runLevel (side : Side) (mid p : Nat) : Nat → Level → List Trade × Nat × Level × List Nat
  | qty, [] => ([], qty, [], [])
  | qty, o :: rest =>
    if qty = 0 then ([], qty, o :: rest, [])
    else
      let exec := min qty o.remainingQty
      let t := marketTrade side mid o.id p exec
      let (ts, q, lvl, ids) := runLevel side mid p (qty - exec) rest
      if o.remainingQty - exec = 0 then (t :: ts, q, lvl, o.id :: ids)
      else (t :: ts, q, { o with remainingQty := o.remainingQty - exec } :: lvl, ids)

/-- Pure form of `consume`. -/
def runBook (side : Side) (mid : Nat) : Nat → LevelMap → List Trade × Nat × LevelMap × List Nat
  | qty, [] => ([], qty, [], [])
  | qty, (price, level) :: rest =>
    if qty = 0 then ([], qty, (price, level) :: rest, [])
    else
      let (ts, q, lvl, ids) := runLevel side mid price qty level
      if lvl.isEmpty then
        let (ts2, q2, rest2, ids2) := runBook side mid q rest
        (ts ++ ts2, q2, rest2, ids ++ ids2)
      else (ts, q, (price, lvl) :: rest, ids)

/-- Every trade the optimized crossing loop appends carries the same
executed quantity on both legs. -/
theorem Optimized.matchLoop_qty_legs :
    ∀ (fuel : Nat) (acc : List Trade) (s : Optimized.State),
      (∀ t ∈ acc, t.buy.qty = t.sell.qty) →
      ∀ t ∈ (Optimized.matchLoop fuel acc s).trades, t.buy.qty = t.sell.qty := by
  intro fuel
  induction fuel with
  | zero => exact fun acc s hacc t ht => hacc t ht
  | succ fuel ih =>
    intro acc s hacc t ht
    rw [Optimized.matchLoop] at ht
    split at ht
    · exact hacc t ht
    · exact hacc t ht
    · split at ht
      · exact hacc t ht
      · split at ht
        · exact hacc t ht
        · exact hacc t ht
        · split at ht
          · refine ih _ _ ?_ t ht
            intro t' ht'
            rcases List.mem_append.mp ht' with h | h
            · exact hacc t' h
            · rw [List.mem_singleton] at h
              subst h
              rfl
          · exact hacc t ht
          · exact hacc t ht

theorem consumeLevel_eq (side : Side) (mid p qty : Nat) (l : Level) :
    consumeLevel side mid p qty l = .ok (runLevel side mid p qty l) := by
  induction l generalizing qty with
  | nil => simp [consumeLevel, runLevel]
  | cons o rest ih =>
    by_cases hq : qty = 0
    · simp [consumeLevel, runLevel, hq]
    · have hmin : ¬ o.remainingQty < min qty o.remainingQty :=
        Nat.not_lt.mpr (Nat.min_le_right qty o.remainingQty)
      rcases hr : runLevel side mid p (qty - min qty o.remainingQty) rest with
        ⟨ts, q, lvl, ids⟩
      by_cases hf : o.remainingQty - min qty o.remainingQty = 0 <;>
        simp [consumeLevel, runLevel, hq, Order.fill, Order.isFilled, hmin, ih, hr, hf]

theorem consume_eq (side : Side) (mid qty : Nat) (m : LevelMap) :
    consume side mid qty m = .ok (runBook side mid qty m) := by
  induction m generalizing qty with
  | nil => simp [consume, runBook]
  | cons pl rest ih =>
    rcases pl with ⟨price, level⟩
    by_cases hq : qty = 0
    · simp [consume, runBook, hq]
    · rcases hr : runLevel side mid price qty level with ⟨ts, q, lvl, ids⟩
      by_cases he : lvl.isEmpty <;>
        simp [consume, runBook, hq, consumeLevel_eq, hr, ih, he]

/-! ### Facts about one trade record -/

@[simp] theorem marketTrade_buy_qty (side : Side) (mid rid p e : Nat) :
    (marketTrade side mid rid p e).buy.qty = e := by cases side <;> rfl

@[simp] theorem marketTrade_sell_qty (side : Side) (mid rid p e : Nat) :
    (marketTrade side mid rid p e).sell.qty = e := by cases side <;> rfl

@[simp] theorem marketTrade_buy_price (side : Side) (mid rid p e : Nat) :
    (marketTrade side mid rid p e).buy.price = p := by cases side <;> rfl

@[simp] theorem marketTrade_sell_price (side : Side) (mid rid p e : Nat) :
    (marketTrade side mid rid p e).sell.price = p := by cases side <;> rfl

@[simp] theorem restingLegId_marketTrade (side : Side) (mid rid p e : Nat) :
    restingLegId side (marketTrade side mid rid p e) = rid := by cases side <;> rfl

@[simp] theorem marketLegId_marketTrade (side : Side) (mid rid p e : Nat) :
    marketLegId side (marketTrade side mid rid p e) = mid := by cases side <;> rfl

/-- The two leg ids of a trade are its market-leg id and its resting-leg id. -/
theorem leg_ids_cases (side : Side) (t : Trade) {mid : Nat} {S : List Nat}
    (h1 : marketLegId side t = mid) (h2 : restingLegId side t ∈ S) :
    (t.buy.id = mid ∧ t.sell.id ∈ S) ∨ (t.buy.id ∈ S ∧ t.sell.id = mid) := by
  cases side <;> simp [marketLegId, restingLegId] at h1 h2 <;> tauto

@[simp] theorem sumQty_nil : sumQty [] = 0 := rfl

theorem sumQty_cons (t : Trade) (ts : List Trade) :
    sumQty (t :: ts) = t.buy.qty + sumQty ts := by simp [sumQty]

theorem sumQty_append (ts₁ ts₂ : List Trade) :
    sumQty (ts₁ ++ ts₂) = sumQty ts₁ + sumQty ts₂ := by simp [sumQty]

@[simp] theorem tradeQtyFor_nil (id : Nat) : tradeQtyFor id [] = 0 := rfl

theorem tradeQtyFor_cons (id : Nat) (t : Trade) (ts : List Trade) :
    tradeQtyFor id (t :: ts) =
      ((if t.buy.id = id then t.buy.qty else 0) +
       (if t.sell.id = id then t.sell.qty else 0)) + tradeQtyFor id ts := by
  simp [tradeQtyFor]

theorem tradeQtyFor_append (id : Nat) (ts₁ ts₂ : List Trade) :
    tradeQtyFor id (ts₁ ++ ts₂) = tradeQtyFor id ts₁ + tradeQtyFor id ts₂ := by
  simp [tradeQtyFor]

/-- Trades none of whose legs carry `id` contribute nothing to its sum. -/
theorem tradeQtyFor_eq_zero {id : Nat} {ts : List Trade}
    (h : ∀ t ∈ ts, t.buy.id ≠ id ∧ t.sell.id ≠ id) : tradeQtyFor id ts = 0 := by
  induction ts with
  | nil => rfl
  | cons t ts ih =>
    have ht := h t (by simp)
    rw [tradeQtyFor_cons, if_neg ht.1, if_neg ht.2, ih fun t' ht' => h t' (by simp [ht'])]

/-! ### Facts about the level-consumption loop -/

theorem runLevel_zero (side : Side) (mid p : Nat) (l : Level) :
    runLevel side mid p 0 l = ([], 0, l, []) := by
  cases l <;> simp [runLevel]

/-- The head order always receives exactly one trade when `qty > 0`. -/
theorem runLevel_fst_cons (side : Side) (mid p qty : Nat) (o : Order) (rest : Level)
    (hq : qty ≠ 0) :
    (runLevel side mid p qty (o :: rest)).1 =
      marketTrade side mid o.id p (min qty o.remainingQty) ::
        (runLevel side mid p (qty - min qty o.remainingQty) rest).1 := by
  rcases hr : runLevel side mid p (qty - min qty o.remainingQty) rest with ⟨ts, q, lvl, ids⟩
  by_cases hf : o.remainingQty - min qty o.remainingQty = 0 <;>
    simp [runLevel, hq, hr, hf]

/-- The leftover quantity does not depend on whether the head fills. -/
theorem runLevel_q_cons (side : Side) (mid p qty : Nat) (o : Order) (rest : Level)
    (hq : qty ≠ 0) :
    (runLevel side mid p qty (o :: rest)).2.1 =
      (runLevel side mid p (qty - min qty o.remainingQty) rest).2.1 := by
  rcases hr : runLevel side mid p (qty - min qty o.remainingQty) rest with ⟨ts, q, lvl, ids⟩
  by_cases hf : o.remainingQty - min qty o.remainingQty = 0 <;>
    simp [runLevel, hq, hr, hf]

/-- Executed quantity plus leftover quantity is the incoming quantity. -/
theorem runLevel_qty (side : Side) (mid p : Nat) (qty : Nat) (l : Level) :
    sumQty (runLevel side mid p qty l).1 + (runLevel side mid p qty l).2.1 = qty := by
  induction l generalizing qty with
  | nil => simp [runLevel]
  | cons o rest ih =>
    by_cases hq : qty = 0
    · simp [runLevel, hq]
    · have hle : min qty o.remainingQty ≤ qty := Nat.min_le_left _ _
      have := ih (qty - min qty o.remainingQty)
      rw [runLevel_fst_cons side mid p qty o rest hq, runLevel_q_cons side mid p qty o rest hq,
        sumQty_cons, marketTrade_buy_qty]
      omega

/-- Every trade of the level loop: equal leg quantities, both legs at the
level price, market leg carrying the synthetic id, resting leg carrying
the id of an order of the level. -/
theorem runLevel_trades (side : Side) (mid p : Nat) (qty : Nat) (l : Level) :
    ∀ t ∈ (runLevel side mid p qty l).1,
      t.buy.qty = t.sell.qty ∧ t.buy.price = p ∧ t.sell.price = p ∧
      marketLegId side t = mid ∧ restingLegId side t ∈ l.map (·.id) := by
  induction l generalizing qty with
  | nil => simp [runLevel]
  | cons o rest ih =>
    by_cases hq : qty = 0
    · simp [runLevel, hq]
    · rw [runLevel_fst_cons side mid p qty o rest hq]
      intro t ht
      rcases List.mem_cons.mp ht with rfl | ht
      · simp
      · obtain ⟨h1, h2, h3, h4, h5⟩ := ih (qty - min qty o.remainingQty) t ht
        exact ⟨h1, h2, h3, h4, by simp at h5 ⊢; exact Or.inr h5⟩
/-- The level and removed-id components of the loop, by whether the head
order fills. -/
theorem runLevel_tail_cons (side : Side) (mid p qty : Nat) (o : Order) (rest : Level)
    (hq : qty ≠ 0) :
    (runLevel side mid p qty (o :: rest)).2.2 =
      if o.remainingQty - min qty o.remainingQty = 0 then
        ((runLevel side mid p (qty - min qty o.remainingQty) rest).2.2.1,
         o.id :: (runLevel side mid p (qty - min qty o.remainingQty) rest).2.2.2)
      else
        ({ o with remainingQty := o.remainingQty - min qty o.remainingQty } ::
           (runLevel side mid p (qty - min qty o.remainingQty) rest).2.2.1,
         (runLevel side mid p (qty - min qty o.remainingQty) rest).2.2.2) := by
  rcases hr : runLevel side mid p (qty - min qty o.remainingQty) rest with ⟨ts, q, lvl, ids⟩
  by_cases hf : o.remainingQty - min qty o.remainingQty = 0 <;>
    simp [runLevel, hq, hr, hf]

/-- The removed ids and the surviving level are a permutation of the
incoming level's ids: nothing is created, duplicated or lost. -/
theorem runLevel_ids_perm (side : Side) (mid p qty : Nat) (l : Level) :
    ((runLevel side mid p qty l).2.2.2 ++
      (runLevel side mid p qty l).2.2.1.map (·.id)).Perm (l.map (·.id)) := by
  induction l generalizing qty with
  | nil => simp [runLevel]
  | cons o rest ih =>
    by_cases hq : qty = 0
    · simp [runLevel, hq]
    · have hperm := ih (qty - min qty o.remainingQty)
      have h22 : (runLevel side mid p qty (o :: rest)).2.2.2 =
          ((runLevel side mid p qty (o :: rest)).2.2).2 := rfl
      have h21 : (runLevel side mid p qty (o :: rest)).2.2.1 =
          ((runLevel side mid p qty (o :: rest)).2.2).1 := rfl
      rw [h22, h21, runLevel_tail_cons side mid p qty o rest hq]
      by_cases hf : o.remainingQty - min qty o.remainingQty = 0
      · simpa [hf] using hperm.cons o.id
      · simp only [hf, ite_false, List.map_cons]
        exact List.perm_middle.trans (hperm.cons o.id)

/-- Orders surviving the loop come from the incoming level, with the same
id and initial quantity and no larger remaining quantity. -/
theorem runLevel_orders (side : Side) (mid p qty : Nat) (l : Level) :
    ∀ o' ∈ (runLevel side mid p qty l).2.2.1, ∃ o ∈ l,
      o'.id = o.id ∧ o'.initialQty = o.initialQty ∧
      o'.remainingQty ≤ o.remainingQty := by
  induction l generalizing qty with
  | nil => simp [runLevel]
  | cons o rest ih =>
    by_cases hq : qty = 0
    · subst hq
      rw [runLevel_zero]
      exact fun o' ho' => ⟨o', ho', rfl, rfl, le_refl _⟩
    · rw [show (runLevel side mid p qty (o :: rest)).2.2.1 =
          ((runLevel side mid p qty (o :: rest)).2.2).1 from rfl,
        runLevel_tail_cons side mid p qty o rest hq]
      by_cases hf : o.remainingQty - min qty o.remainingQty = 0
      · simp only [hf, ite_true]
        intro o' ho'
        obtain ⟨o₀, h₀, h₁⟩ := ih (qty - min qty o.remainingQty) o' ho'
        exact ⟨o₀, List.mem_cons_of_mem _ h₀, h₁⟩
      · simp only [hf, ite_false]
        intro o' ho'
        rcases List.mem_cons.mp ho' with rfl | ho'
        · exact ⟨o, List.mem_cons_self _ _, rfl, rfl, Nat.sub_le _ _⟩
        · obtain ⟨o₀, h₀, h₁⟩ := ih (qty - min qty o.remainingQty) o' ho'
          exact ⟨o₀, List.mem_cons_of_mem _ h₀, h₁⟩

/-- Contribution of one `add_market` trade to its resting order's total. -/
theorem tradeQtyFor_head_resting (side : Side) (mid rid p e : Nat) (h : mid ≠ rid) :
    (if (marketTrade side mid rid p e).buy.id = rid
     then (marketTrade side mid rid p e).buy.qty else 0) +
    (if (marketTrade side mid rid p e).sell.id = rid
     then (marketTrade side mid rid p e).sell.qty else 0) = e := by
  cases side <;> simp [marketTrade, h]

/-- Contribution of one `add_market` trade to an uninvolved id's total. -/
theorem tradeQtyFor_head_other (side : Side) (mid rid p e x : Nat)
    (h1 : x ≠ mid) (h2 : x ≠ rid) :
    (if (marketTrade side mid rid p e).buy.id = x
     then (marketTrade side mid rid p e).buy.qty else 0) +
    (if (marketTrade side mid rid p e).sell.id = x
     then (marketTrade side mid rid p e).sell.qty else 0) = 0 := by
  cases side <;> simp [marketTrade, Ne.symm h1, Ne.symm h2]

/-- Per-order conservation in one level: the trades carrying a resting
order's id never total more than its remaining quantity. -/
theorem runLevel_bound (side : Side) (mid p qty : Nat) (l : Level)
    (hnd : (l.map (·.id)).Nodup) (hmid : mid ∉ l.map (·.id)) :
    ∀ o ∈ l, tradeQtyFor o.id (runLevel side mid p qty l).1 ≤ o.remainingQty := by
  induction l generalizing qty with
  | nil => simp
  | cons o0 rest ih =>
    by_cases hq : qty = 0
    · simp [runLevel, hq]
    · rw [runLevel_fst_cons side mid p qty o0 rest hq]
      simp only [List.map_cons, List.nodup_cons] at hnd
      simp only [List.map_cons, List.mem_cons, not_or] at hmid
      intro o ho
      rw [tradeQtyFor_cons]
      rcases List.mem_cons.mp ho with rfl | ho
      · have hrest0 : tradeQtyFor o.id
            (runLevel side mid p (qty - min qty o.remainingQty) rest).1 = 0 := by
          refine tradeQtyFor_eq_zero fun t ht => ?_
          obtain ⟨_, _, _, h4, h5⟩ :=
            runLevel_trades side mid p (qty - min qty o.remainingQty) rest t ht
          rcases leg_ids_cases side t h4 h5 with ⟨hb, hs⟩ | ⟨hb, hs⟩
          · exact ⟨fun he => hmid.1 (hb ▸ he), fun he => hnd.1 (he ▸ hs)⟩
          · exact ⟨fun he => hnd.1 (he ▸ hb), fun he => hmid.1 (hs ▸ he)⟩
        rw [hrest0, tradeQtyFor_head_resting side mid o.id p _ hmid.1]
        exact Nat.min_le_right _ _
      · have ho_ne_mid : o.id ≠ mid := fun he => hmid.2 (he ▸ List.mem_map_of_mem _ ho)
        have ho_ne_o0 : o.id ≠ o0.id := fun he => hnd.1 (he ▸ List.mem_map_of_mem _ ho)
        rw [tradeQtyFor_head_other side mid o0.id p _ o.id ho_ne_mid ho_ne_o0,
          Nat.zero_add]
        exact ih (qty - min qty o0.remainingQty) hnd.2 hmid.2 o ho

/-- In the unfilled branch the quantity is exhausted, so the recursion
produces nothing more. -/
theorem runLevel_unfilled_rest (qty : Nat) (o : Order)
    (_hq : qty ≠ 0) (hf : o.remainingQty - min qty o.remainingQty ≠ 0) :
    qty - min qty o.remainingQty = 0 := by
  rcases Nat.le_total qty o.remainingQty with h | h
  · rw [Nat.min_eq_left h]; omega
  · rw [Nat.min_eq_right h] at hf ⊢; omega

/-- FIFO fairness in one level: if a trade reaches the resting order `B`,
every order queued ahead of `B` was fully filled and removed. -/
theorem runLevel_fifo (side : Side) (mid p : Nat) (l₁ l₂ l₃ : Level) (A B : Order) :
    ∀ (qty : Nat),
    (((l₁ ++ A :: (l₂ ++ B :: l₃)).map (·.id)).Nodup) →
    (∃ t ∈ (runLevel side mid p qty (l₁ ++ A :: (l₂ ++ B :: l₃))).1,
        restingLegId side t = B.id) →
    A.id ∈ (runLevel side mid p qty (l₁ ++ A :: (l₂ ++ B :: l₃))).2.2.2 := by
  induction l₁ with
  | nil =>
    intro qty hnd hB
    simp only [List.nil_append] at hnd hB ⊢
    by_cases hq : qty = 0
    · rw [hq, runLevel_zero] at hB
      simp at hB
    · obtain ⟨t, ht, htB⟩ := hB
      rw [runLevel_fst_cons side mid p qty A (l₂ ++ B :: l₃) hq] at ht
      have hABne : A.id ≠ B.id := by
        simp only [List.map_cons, List.nodup_cons] at hnd
        exact fun he => hnd.1 (he.symm ▸ List.mem_map_of_mem _ (by simp))
      by_cases hf : A.remainingQty - min qty A.remainingQty = 0
      · rw [runLevel_tail_cons side mid p qty A (l₂ ++ B :: l₃) hq]
        simp [hf]
      · exfalso
        rcases List.mem_cons.mp ht with rfl | ht
        · rw [restingLegId_marketTrade] at htB
          exact hABne htB
        · rw [runLevel_unfilled_rest qty A hq hf, runLevel_zero] at ht
          simp at ht
  | cons o0 l₁' ih =>
    intro qty hnd hB
    simp only [List.cons_append] at hnd hB ⊢
    by_cases hq : qty = 0
    · rw [hq, runLevel_zero] at hB
      simp at hB
    · obtain ⟨t, ht, htB⟩ := hB
      rw [runLevel_fst_cons side mid p qty o0 (l₁' ++ A :: (l₂ ++ B :: l₃)) hq] at ht
      have hBne : o0.id ≠ B.id := by
        simp only [List.map_cons, List.nodup_cons] at hnd
        refine fun he => hnd.1 (he.symm ▸ List.mem_map_of_mem _ ?_)
        simp
      by_cases hf : o0.remainingQty - min qty o0.remainingQty = 0
      · rw [runLevel_tail_cons side mid p qty o0 (l₁' ++ A :: (l₂ ++ B :: l₃)) hq]
        simp only [hf, ite_true]
        rcases List.mem_cons.mp ht with rfl | ht
        · rw [restingLegId_marketTrade] at htB
          exact absurd htB hBne
        · have hnd' : ((l₁' ++ A :: (l₂ ++ B :: l₃)).map (·.id)).Nodup := by
            simp only [List.map_cons, List.nodup_cons] at hnd
            exact hnd.2
          exact List.mem_cons_of_mem _
            (ih (qty - min qty o0.remainingQty) hnd' ⟨t, ht, htB⟩)
      · exfalso
        rcases List.mem_cons.mp ht with rfl | ht
        · rw [restingLegId_marketTrade] at htB
          exact hBne htB
        · rw [runLevel_unfilled_rest qty o0 hq hf, runLevel_zero] at ht
          simp at ht

/-- A quantity exceeding the level's liquidity drains the level: every
order fills, the level empties, and the leftover is the difference. -/
theorem runLevel_exhaust (side : Side) (mid p : Nat) (qty : Nat) (l : Level)
    (h : sumRem l < qty) :
    (runLevel side mid p qty l).2.1 = qty - sumRem l ∧
    (runLevel side mid p qty l).2.2.1 = [] ∧
    (runLevel side mid p qty l).2.2.2 = l.map (·.id) := by
  induction l generalizing qty with
  | nil => simp [runLevel, sumRem]
  | cons o rest ih =>
    have hs : sumRem (o :: rest) = o.remainingQty + sumRem rest := by simp [sumRem]
    rw [hs] at h
    have hq : qty ≠ 0 := by omega
    have hexec : min qty o.remainingQty = o.remainingQty := Nat.min_eq_right (by omega)
    have hf : o.remainingQty - min qty o.remainingQty = 0 := by rw [hexec]; omega
    have ihr := ih (qty - min qty o.remainingQty) (by rw [hexec]; omega)
    refine ⟨?_, ?_, ?_⟩
    · rw [runLevel_q_cons side mid p qty o rest hq, ihr.1, hexec]
      omega
    · rw [show (runLevel side mid p qty (o :: rest)).2.2.1 =
          ((runLevel side mid p qty (o :: rest)).2.2).1 from rfl,
        runLevel_tail_cons side mid p qty o rest hq]
      simp only [hf, ite_true]
      exact ihr.2.1
    · rw [show (runLevel side mid p qty (o :: rest)).2.2.2 =
          ((runLevel side mid p qty (o :: rest)).2.2).2 from rfl,
        runLevel_tail_cons side mid p qty o rest hq]
      simp only [hf, ite_true, List.map_cons]
      rw [ihr.2.2]

/-! ### Facts about the multi-level consumption loop -/

theorem runBook_zero (side : Side) (mid : Nat) (m : LevelMap) :
    runBook side mid 0 m = ([], 0, m, []) := by
  cases m with
  | nil => simp [runBook]
  | cons pl rest => rcases pl with ⟨p, l⟩; simp [runBook]

theorem totalQty_cons (p : Nat) (l : Level) (rest : LevelMap) :
    totalQty ((p, l) :: rest) = sumRem l + totalQty rest := by
  simp [totalQty, sumRem]

theorem idsOf_cons (p : Nat) (l : Level) (rest : LevelMap) :
    idsOf ((p, l) :: rest) = l.map (·.id) ++ idsOf rest := by
  simp [idsOf]

theorem mem_idsOf {m : LevelMap} {pl : Nat × Level} (h : pl ∈ m) {x : Nat}
    (hx : x ∈ pl.2.map (·.id)) : x ∈ idsOf m := by
  simp only [idsOf, List.mem_flatMap]
  exact ⟨pl, h, hx⟩

/-- Executed plus leftover quantity equals the incoming quantity. -/
theorem runBook_qty (side : Side) (mid : Nat) (qty : Nat) (m : LevelMap) :
    sumQty (runBook side mid qty m).1 + (runBook side mid qty m).2.1 = qty := by
  induction m generalizing qty with
  | nil => simp [runBook]
  | cons pl rest ih =>
    rcases pl with ⟨price, level⟩
    by_cases hq : qty = 0
    · simp [runBook, hq]
    · rcases hr : runLevel side mid price qty level with ⟨ts, q, lvl, ids⟩
      have hlev := runLevel_qty side mid price qty level
      rw [hr] at hlev
      by_cases he : lvl.isEmpty
      · rcases hb : runBook side mid q rest with ⟨ts2, q2, rest2, ids2⟩
        have hih := ih q
        rw [hb] at hih
        simp only [runBook, hq, ite_false, hr, he, ite_true, hb, sumQty_append]
        simp only [sumQty] at hlev hih ⊢
        omega
      · simpa [runBook, hq, hr, he] using hlev

/-- Shape of every trade of a market walk: equal leg quantities, market
leg carrying the synthetic id, both legs priced at the level of the
resting order whose id the resting leg carries. -/
theorem runBook_trades (side : Side) (mid : Nat) (qty : Nat) (m : LevelMap) :
    ∀ t ∈ (runBook side mid qty m).1,
      t.buy.qty = t.sell.qty ∧ marketLegId side t = mid ∧
      ∃ pl ∈ m, t.buy.price = pl.1 ∧ t.sell.price = pl.1 ∧
        restingLegId side t ∈ pl.2.map (·.id) := by
  induction m generalizing qty with
  | nil => simp [runBook]
  | cons pl rest ih =>
    rcases pl with ⟨price, level⟩
    by_cases hq : qty = 0
    · simp [runBook, hq]
    · rcases hr : runLevel side mid price qty level with ⟨ts, q, lvl, ids⟩
      have hlev := runLevel_trades side mid price qty level
      rw [hr] at hlev
      have hhead : ∀ t ∈ ts, t.buy.qty = t.sell.qty ∧ marketLegId side t = mid ∧
          ∃ pl ∈ (price, level) :: rest, t.buy.price = pl.1 ∧ t.sell.price = pl.1 ∧
            restingLegId side t ∈ pl.2.map (·.id) := by
        intro t ht
        obtain ⟨h1, h2, h3, h4, h5⟩ := hlev t ht
        exact ⟨h1, h4, (price, level), List.mem_cons_self _ _, h2, h3, h5⟩
      by_cases he : lvl.isEmpty
      · rcases hb : runBook side mid q rest with ⟨ts2, q2, rest2, ids2⟩
        have hih := ih q
        rw [hb] at hih
        simp only [runBook, hq, ite_false, hr, he, ite_true, hb]
        intro t ht
        rcases List.mem_append.mp ht with ht | ht
        · exact hhead t ht
        · obtain ⟨h1, h2, pl, hpl, h3⟩ := hih t ht
          exact ⟨h1, h2, pl, List.mem_cons_of_mem _ hpl, h3⟩
      · simpa [runBook, hq, hr, he] using hhead

/-- The removed ids and the ids still resting are a permutation of the
incoming ids. -/
theorem runBook_ids_perm (side : Side) (mid : Nat) (qty : Nat) (m : LevelMap) :
    ((runBook side mid qty m).2.2.2 ++ idsOf (runBook side mid qty m).2.2.1).Perm
      (idsOf m) := by
  induction m generalizing qty with
  | nil => simp [runBook, idsOf]
  | cons pl rest ih =>
    rcases pl with ⟨price, level⟩
    by_cases hq : qty = 0
    · simp [runBook, hq]
    · rcases hr : runLevel side mid price qty level with ⟨ts, q, lvl, ids⟩
      have hlev := runLevel_ids_perm side mid price qty level
      rw [hr] at hlev
      by_cases he : lvl.isEmpty
      · rcases hb : runBook side mid q rest with ⟨ts2, q2, rest2, ids2⟩
        have hih := ih q
        rw [hb] at hih
        have hlvl : lvl = [] := List.isEmpty_iff.mp he
        rw [hlvl] at hlev
        simp only [List.map_nil, List.append_nil] at hlev
        simp only [runBook, hq, ite_false, hr, he, ite_true, hb, idsOf_cons]
        rw [List.append_assoc]
        exact hlev.append hih
      · simp only [runBook, hq, ite_false, hr, he, Bool.not_eq_true, Bool.false_eq_true,
          if_false, idsOf_cons]
        rw [← List.append_assoc]
        exact hlev.append (List.Perm.refl _)

/-- Orders left resting by a market walk descend from incoming orders:
same initial quantity, no larger remaining quantity. -/
theorem runBook_orders (side : Side) (mid : Nat) (qty : Nat) (m : LevelMap) :
    ∀ pl' ∈ (runBook side mid qty m).2.2.1, ∀ o' ∈ pl'.2, ∃ pl ∈ m, ∃ o ∈ pl.2,
      o'.initialQty = o.initialQty ∧ o'.remainingQty ≤ o.remainingQty := by
  induction m generalizing qty with
  | nil => simp [runBook]
  | cons pl rest ih =>
    rcases pl with ⟨price, level⟩
    by_cases hq : qty = 0
    · subst hq
      rw [runBook_zero]
      exact fun pl' hpl' o' ho' => ⟨pl', hpl', o', ho', rfl, le_refl _⟩
    · rcases hr : runLevel side mid price qty level with ⟨ts, q, lvl, ids⟩
      have hlev := runLevel_orders side mid price qty level
      rw [hr] at hlev
      by_cases he : lvl.isEmpty
      · rcases hb : runBook side mid q rest with ⟨ts2, q2, rest2, ids2⟩
        have hih := ih q
        rw [hb] at hih
        simp only [runBook, hq, ite_false, hr, he, ite_true, hb]
        intro pl' hpl' o' ho'
        obtain ⟨pl, hpl, hrest⟩ := hih pl' hpl' o' ho'
        exact ⟨pl, List.mem_cons_of_mem _ hpl, hrest⟩
      · simp only [runBook, hq, ite_false, hr, he, ite_false]
        intro pl' hpl' o' ho'
        rcases List.mem_cons.mp hpl' with rfl | hpl'
        · obtain ⟨o, ho, h1, h2, h3⟩ := hlev o' ho'
          exact ⟨(price, level), List.mem_cons_self _ _, o, ho, h2, h3⟩
        · exact ⟨pl', List.mem_cons_of_mem _ hpl', o', ho', rfl, le_refl _⟩

/-- Per-order conservation across the whole walk. -/
theorem runBook_bound (side : Side) (mid : Nat) (qty : Nat) (m : LevelMap)
    (hnd : (idsOf m).Nodup) (hmid : mid ∉ idsOf m) :
    ∀ pl ∈ m, ∀ o ∈ pl.2, tradeQtyFor o.id (runBook side mid qty m).1 ≤ o.remainingQty := by
  induction m generalizing qty with
  | nil => simp
  | cons hd rest ih =>
    rcases hd with ⟨price, level⟩
    rw [idsOf_cons] at hnd hmid
    rw [List.nodup_append] at hnd
    obtain ⟨ndl, ndr, hdisj⟩ := hnd
    rw [List.mem_append, not_or] at hmid
    by_cases hq : qty = 0
    · simp [runBook, hq]
    · rcases hr : runLevel side mid price qty level with ⟨ts, q, lvl, ids⟩
      have hts0 : ∀ x, x ≠ mid → x ∉ level.map (·.id) → tradeQtyFor x ts = 0 := by
        intro x hxm hxl
        refine tradeQtyFor_eq_zero fun t ht => ?_
        have hlevt := runLevel_trades side mid price qty level
        rw [hr] at hlevt
        obtain ⟨_, _, _, h4, h5⟩ := hlevt t ht
        rcases leg_ids_cases side t h4 h5 with ⟨hb, hs⟩ | ⟨hb, hs⟩
        · exact ⟨fun h => hxm (h.symm.trans hb), fun h => hxl (h ▸ hs)⟩
        · exact ⟨fun h => hxl (h ▸ hb), fun h => hxm (h.symm.trans hs)⟩
      have htsbound : ∀ o ∈ level, tradeQtyFor o.id ts ≤ o.remainingQty := by
        have := runLevel_bound side mid price qty level ndl hmid.1
        rw [hr] at this
        exact this
      by_cases he : lvl.isEmpty
      · rcases hb : runBook side mid q rest with ⟨ts2, q2, rest2, ids2⟩
        have hih := ih q ndr hmid.2
        rw [hb] at hih
        have hts20 : ∀ x, x ≠ mid → x ∉ idsOf rest → tradeQtyFor x ts2 = 0 := by
          intro x hxm hxr
          refine tradeQtyFor_eq_zero fun t ht => ?_
          have hrt := runBook_trades side mid q rest
          rw [hb] at hrt
          obtain ⟨_, h2, pl, hpl, _, _, h5⟩ := hrt t ht
          rcases leg_ids_cases side t h2 h5 with ⟨hbq, hs⟩ | ⟨hbq, hs⟩
          · exact ⟨fun h => hxm (h.symm.trans hbq), fun h => hxr (mem_idsOf hpl (h ▸ hs))⟩
          · exact ⟨fun h => hxr (mem_idsOf hpl (h ▸ hbq)), fun h => hxm (h.symm.trans hs)⟩
        simp only [runBook, hq, ite_false, hr, he, ite_true, hb]
        intro pl hpl o ho
        rw [tradeQtyFor_append]
        rcases List.mem_cons.mp hpl with rfl | hpl
        · have h2 : tradeQtyFor o.id ts2 = 0 :=
            hts20 o.id (fun h => hmid.1 (h ▸ List.mem_map_of_mem _ ho))
              (fun h => hdisj (List.mem_map_of_mem _ ho) h)
          rw [h2, Nat.add_zero]
          exact htsbound o ho
        · have h1 : tradeQtyFor o.id ts = 0 := by
            refine hts0 o.id (fun h => hmid.2 (h ▸ mem_idsOf hpl (List.mem_map_of_mem _ ho)))
              fun h => hdisj h (mem_idsOf hpl (List.mem_map_of_mem _ ho))
          rw [h1, Nat.zero_add]
          exact hih pl hpl o ho
      · simp only [runBook, hq, ite_false, hr, he, Bool.not_eq_true, Bool.false_eq_true,
          if_false]
        intro pl hpl o ho
        rcases List.mem_cons.mp hpl with rfl | hpl
        · exact htsbound o ho
        · have h1 : tradeQtyFor o.id ts = 0 := by
            refine hts0 o.id (fun h => hmid.2 (h ▸ mem_idsOf hpl (List.mem_map_of_mem _ ho)))
              fun h => hdisj h (mem_idsOf hpl (List.mem_map_of_mem _ ho))
          rw [h1]
          exact Nat.zero_le _

/-- FIFO fairness lifted to the whole walk: a trade reaching `B` forces
every order queued ahead of `B` at its level to have been removed. -/
theorem runBook_fifo (side : Side) (mid : Nat) (qty : Nat) (m : LevelMap)
    (hnd : (idsOf m).Nodup) (p : Nat) (l₁ l₂ l₃ : Level) (A B : Order)
    (hlvl : (p, l₁ ++ A :: (l₂ ++ B :: l₃)) ∈ m)
    (hB : ∃ t ∈ (runBook side mid qty m).1, restingLegId side t = B.id) :
    A.id ∈ (runBook side mid qty m).2.2.2 := by
  induction m generalizing qty with
  | nil => simp at hlvl
  | cons hd rest ih =>
    rcases hd with ⟨price, level⟩
    rw [idsOf_cons] at hnd
    rw [List.nodup_append] at hnd
    obtain ⟨ndl, ndr, hdisj⟩ := hnd
    by_cases hq : qty = 0
    · rw [hq, runBook_zero] at hB
      simp at hB
    · rcases hr : runLevel side mid price qty level with ⟨ts, q, lvl, ids⟩
      rcases List.mem_cons.mp hlvl with heq | hlvl
      · -- the cited level is the head level
        cases heq
        have hBlev : B.id ∈ (l₁ ++ A :: (l₂ ++ B :: l₃)).map (·.id) :=
          List.mem_map_of_mem _ (by simp)
        have hfifo : (∃ t ∈ ts, restingLegId side t = B.id) →
            A.id ∈ ids := by
          intro hx
          have := runLevel_fifo side mid p l₁ l₂ l₃ A B qty ndl
          rw [hr] at this
          exact this hx
        by_cases he : lvl.isEmpty
        · rcases hb : runBook side mid q rest with ⟨ts2, q2, rest2, ids2⟩
          rw [show (runBook side mid qty ((p, l₁ ++ A :: (l₂ ++ B :: l₃)) :: rest)) =
              (ts ++ ts2, q2, rest2, ids ++ ids2) from by
            simp [runBook, hq, hr, he, hb]] at hB ⊢
          obtain ⟨t, ht, htB⟩ := hB
          rcases List.mem_append.mp ht with ht | ht
          · exact List.mem_append.mpr (Or.inl (hfifo ⟨t, ht, htB⟩))
          · exfalso
            have hrt := runBook_trades side mid q rest
            rw [hb] at hrt
            obtain ⟨_, _, pl, hpl, _, _, h5⟩ := hrt t ht
            exact hdisj hBlev (mem_idsOf hpl (htB ▸ h5))
        · rw [show (runBook side mid qty ((p, l₁ ++ A :: (l₂ ++ B :: l₃)) :: rest)) =
              (ts, q, (p, lvl) :: rest, ids) from by
            simp [runBook, hq, hr, he]] at hB ⊢
          exact hfifo hB
      · -- the cited level sits deeper in the walk
        have hBrest : B.id ∈ idsOf rest :=
          mem_idsOf hlvl (List.mem_map_of_mem _ (by simp))
        have hts_not : ∀ t ∈ ts, restingLegId side t ≠ B.id := by
          intro t ht htB
          have hlevt := runLevel_trades side mid price qty level
          rw [hr] at hlevt
          obtain ⟨_, _, _, _, h5⟩ := hlevt t ht
          exact hdisj (htB ▸ h5) hBrest
        by_cases he : lvl.isEmpty
        · rcases hb : runBook side mid q rest with ⟨ts2, q2, rest2, ids2⟩
          rw [show (runBook side mid qty ((price, level) :: rest)) =
              (ts ++ ts2, q2, rest2, ids ++ ids2) from by
            simp [runBook, hq, hr, he, hb]] at hB ⊢
          obtain ⟨t, ht, htB⟩ := hB
          rcases List.mem_append.mp ht with ht | ht
          · exact absurd htB (hts_not t ht)
          · have := ih q ndr hlvl ⟨t, by rw [hb]; exact ht, htB⟩
            rw [hb] at this
            exact List.mem_append.mpr (Or.inr this)
        · rw [show (runBook side mid qty ((price, level) :: rest)) =
              (ts, q, (price, lvl) :: rest, ids) from by
            simp [runBook, hq, hr, he]] at hB ⊢
          obtain ⟨t, ht, htB⟩ := hB
          exact absurd htB (hts_not t ht)

/-- A quantity exceeding the whole opposing side drains it completely. -/
theorem runBook_exhaust (side : Side) (mid : Nat) (qty : Nat) (m : LevelMap)
    (h : totalQty m < qty) :
    (runBook side mid qty m).2.1 = qty - totalQty m ∧
    (runBook side mid qty m).2.2.1 = [] ∧
    (runBook side mid qty m).2.2.2 = idsOf m := by
  induction m generalizing qty with
  | nil => simp [runBook, totalQty, idsOf]
  | cons hd rest ih =>
    rcases hd with ⟨price, level⟩
    rw [totalQty_cons] at h
    have hq : qty ≠ 0 := by omega
    have hlev := runLevel_exhaust side mid price qty level (by omega)
    rcases hr : runLevel side mid price qty level with ⟨ts, q, lvl, ids⟩
    rw [hr] at hlev
    obtain ⟨hq', hlvl, hids⟩ := hlev
    simp only at hq' hlvl hids
    subst hlvl
    have hihq : totalQty rest < q := by rw [hq']; omega
    have hihr := ih q hihq
    rcases hb : runBook side mid q rest with ⟨ts2, q2, rest2, ids2⟩
    rw [hb] at hihr
    simp only at hihr
    simp only [runBook, hq, ite_false, hr, List.isEmpty_nil, ite_true, hb, idsOf_cons]
    refine ⟨?_, hihr.2.1, ?_⟩
    · rw [hihr.1, hq', totalQty_cons]
      omega
    · rw [hihr.2.2, hids]

/-! ### Facts about the order index erasures -/

theorem keys_eraseIdx_sublist (id : Nat) (m : List (Nat × Handle)) :
    ((eraseIdx id m).map (·.1)).Sublist (m.map (·.1)) := by
  induction m with
  | nil => simp [eraseIdx]
  | cons kv rest ih =>
    rcases kv with ⟨k, v⟩
    by_cases hk : k = id
    · simp only [eraseIdx, hk, ite_true, List.map_cons]
      exact (List.sublist_cons_self _ _).trans (List.Sublist.refl _) |>.trans
        (List.Sublist.refl _)
    · simp only [eraseIdx, hk, ite_false, List.map_cons]
      exact ih.cons₂ _

theorem foldl_erase_keys_sublist (rm : List Nat) (m : List (Nat × Handle)) :
    ((rm.foldl (fun ix id => eraseIdx id ix) m).map (·.1)).Sublist (m.map (·.1)) := by
  induction rm generalizing m with
  | nil => simp
  | cons id rest ih =>
    simp only [List.foldl_cons]
    exact (ih (eraseIdx id m)).trans (keys_eraseIdx_sublist id m)

theorem not_mem_keys_eraseIdx (id : Nat) (m : List (Nat × Handle))
    (hnd : (m.map (·.1)).Nodup) : id ∉ (eraseIdx id m).map (·.1) := by
  induction m with
  | nil => simp [eraseIdx]
  | cons kv rest ih =>
    rcases kv with ⟨k, v⟩
    simp only [List.map_cons, List.nodup_cons] at hnd
    by_cases hk : k = id
    · simp only [eraseIdx, hk, ite_true]
      exact hk ▸ hnd.1
    · simp only [eraseIdx, hk, ite_false, List.map_cons, List.mem_cons, not_or]
      exact ⟨fun h => hk h.symm, ih hnd.2⟩

theorem foldl_erase_not_mem (rm : List Nat) (m : List (Nat × Handle)) (id : Nat)
    (hnd : (m.map (·.1)).Nodup) (hid : id ∈ rm) :
    id ∉ (rm.foldl (fun ix i => eraseIdx i ix) m).map (·.1) := by
  induction rm generalizing m with
  | nil => simp at hid
  | cons i rest ih =>
    simp only [List.foldl_cons]
    rcases List.mem_cons.mp hid with rfl | hid
    · intro hmem
      exact not_mem_keys_eraseIdx id m hnd
        ((foldl_erase_keys_sublist rest (eraseIdx id m)).subset hmem)
    · exact ih (eraseIdx i m) ((keys_eraseIdx_sublist i m).nodup hnd) hid

theorem add_market_eq (b : OrderBook) (side : Side) (qty : Nat) :
    b.add_market side qty =
      .ok (if qty = 0 then ([], b)
           else
             let mid := b.nextOrderId
             let b1 := { b with nextOrderId := b.nextOrderId + 1 }
             match side with
             | .buy =>
               let (ts, _, asks', ids) := runBook side mid qty b.asks
               (ts, { b1 with asks := asks',
                              index := ids.foldl (fun ix id => eraseIdx id ix) b.index })
             | .sell =>
               let (ts, _, bids', ids) := runBook side mid qty b.bids
               (ts, { b1 with bids := bids',
                              index := ids.foldl (fun ix id => eraseIdx id ix) b.index })) := by
  by_cases hq : qty = 0
  · simp [OrderBook.add_market, hq]
  · cases side with
    | buy =>
      rcases hr : runBook .buy b.nextOrderId qty b.asks with ⟨ts, q, m', ids⟩
      simp [OrderBook.add_market, hq, consume_eq, hr]
    | sell =>
      rcases hr : runBook .sell b.nextOrderId qty b.bids with ⟨ts, q, m', ids⟩
      simp [OrderBook.add_market, hq, consume_eq, hr]

/-- Components of a successful non-trivial `add_market` call. -/
theorem add_market_ok (b : OrderBook) (side : Side) (qty : Nat) (ts : List Trade)
    (b' : OrderBook) (hq : qty ≠ 0) (h : b.add_market side qty = .ok (ts, b')) :
    ts = (runBook side b.nextOrderId qty (b.opposing side)).1 ∧
    b'.opposing side = (runBook side b.nextOrderId qty (b.opposing side)).2.2.1 ∧
    (side = Side.buy → b'.bids = b.bids) ∧
    (side = Side.sell → b'.asks = b.asks) ∧
    b'.index = (runBook side b.nextOrderId qty (b.opposing side)).2.2.2.foldl
        (fun ix id => eraseIdx id ix) b.index ∧
    b'.nextOrderId = b.nextOrderId + 1 := by
  rw [add_market_eq] at h
  cases side with
  | buy =>
    rcases hr : runBook .buy b.nextOrderId qty b.asks with ⟨ts0, q0, m0, ids0⟩
    simp only [if_neg hq, hr] at h
    have h' := Except.ok.inj h
    obtain ⟨h1, h2⟩ := Prod.mk.injEq .. ▸ h'
    subst h1
    subst h2
    exact ⟨by simp [OrderBook.opposing, hr], by simp [OrderBook.opposing, hr],
      fun _ => rfl, fun hss => Side.noConfusion hss,
      by simp [OrderBook.opposing, hr], rfl⟩
  | sell =>
    rcases hr : runBook .sell b.nextOrderId qty b.bids with ⟨ts0, q0, m0, ids0⟩
    simp only [if_neg hq, hr] at h
    have h' := Except.ok.inj h
    obtain ⟨h1, h2⟩ := Prod.mk.injEq .. ▸ h'
    subst h1
    subst h2
    exact ⟨by simp [OrderBook.opposing, hr], by simp [OrderBook.opposing, hr],
      fun hss => Side.noConfusion hss, fun _ => rfl,
      by simp [OrderBook.opposing, hr], rfl⟩

/-! ## Claim theorems -/

/-- **C1** — evaluation at the failing input.  Submitting ask 5\@100 and
then bid 5\@100 through `add_limit` leaves both sides non-empty with best
bid = best ask = 100: the book stays crossed after the second call
returns, because `matchOrders` (empty body in `src/OrderBook.cpp`) matches
nothing away, violating the no-cross invariant best bid < best ask. -/
theorem C1_no_cross_invariant_fails :
    ((OrderBook.empty.add_limit .sell 100 5).2.add_limit .buy 100 5).2.bids ≠ [] ∧
    ((OrderBook.empty.add_limit .sell 100 5).2.add_limit .buy 100 5).2.asks ≠ [] ∧
    ((OrderBook.empty.add_limit .sell 100 5).2.add_limit .buy 100 5).2.bestBid =
      some 100 ∧
    ((OrderBook.empty.add_limit .sell 100 5).2.add_limit .buy 100 5).2.bestAsk =
      some 100 := by
  decide

/-- **C2** — evaluation at the failing input.  With ask 5\@100 resting, the
buy limit 5\@101 is immediately marketable, yet `add_limit` returns no
trades and both orders rest (ids 2 and 1), leaving best bid 101 above best
ask 100: the crossing step of the claim never happens because
`matchOrders` has an empty body in `src/OrderBook.cpp`. -/
theorem C2_marketable_limit_not_matched :
    ((OrderBook.empty.add_limit .sell 100 5).2.add_limit .buy 101 5).1 = [] ∧
    ((OrderBook.empty.add_limit .sell 100 5).2.add_limit .buy 101 5).2.restingIds
      = [2, 1] ∧
    ((OrderBook.empty.add_limit .sell 100 5).2.add_limit .buy 101 5).2.bestBid =
      some 101 ∧
    ((OrderBook.empty.add_limit .sell 100 5).2.add_limit .buy 101 5).2.bestAsk =
      some 100 := by
  decide

/-- **C5** — evaluation at the failing input.  `cancel(42)` on an empty
optimized book does not fail with any `UnknownOrder` error: the source's
`orderIdToIterator_[id]` default-inserts a handle for the unknown id and
`bids_[0]` creates an empty level at price 0 before the erase through the
singular iterator, which is undefined behaviour — the call has no error
path at all, and it mutates the index and the ledger on the way. -/
theorem C5_cancel_unknown_id_no_error_path :
    Optimized.cancel 42 ⟨[], [], [], 1⟩ =
      .ub "erase through a singular iterator"
        ⟨[], [(0, [])], [(42, ⟨.buy, 0, none⟩)], 1⟩ := by
  decide

/-- **C8** — evaluation at the failing input.  `add_limit(BUY, 100, 0)` in
`src/OrderBook.cpp` is not rejected: the call returns normally (its type
has no error outcome) and a zero-quantity order rests in the ledger and is
indexed.  `add_market` with quantity 0 is indeed a no-op returning no
trades.  In `src/OrderBookOptimized.cpp` the five-argument `Order`
constructor throws its "no quantity" error for every quantity, here 5. -/
theorem C8_zero_qty_limit_not_rejected :
    OrderBook.empty.add_limit .buy 100 0 =
      ([], ⟨[], [(100, [⟨.buy, 1, .limit, some 100, 0, 0⟩])],
            [(1, ⟨.buy, 100⟩)], 2⟩) ∧
    OrderBook.empty.add_market .buy 0 = .ok ([], OrderBook.empty) ∧
    Optimized.Order.create .buy 1 .limit 100 5 =
      .error "cannot create order with no quantity!" :=
  ⟨by decide, rfl, rfl⟩

/-- **C9** — evaluation at the failing input.  Crossing bid 10\@100 (id 1)
against ask 5\@100 (id 2) in the optimized `matchOrders`: the ask fills,
but line 227 erases `bid.getOrderId()`, so the index ends as `{2}` while
the ledger holds the live bid id 1 with remaining 5 — the filled ask stays
indexed and the live resting bid loses its index entry, breaking the
index-ledger consistency invariant (the loop then dereferences the empty
ask map, which is undefined behaviour). -/
theorem C9_index_ledger_consistency_fails :
    (Optimized.matchOrders
        ⟨[(100, [⟨.sell, 2, .limit, 100, 5, 5⟩])],
         [(100, [⟨.buy, 1, .limit, 100, 10, 10⟩])],
         [(1, ⟨.buy, 100, some 0⟩), (2, ⟨.sell, 100, some 0⟩)], 3⟩).state.index =
      [(2, ⟨.sell, 100, some 0⟩)] ∧
    (Optimized.matchOrders
        ⟨[(100, [⟨.sell, 2, .limit, 100, 5, 5⟩])],
         [(100, [⟨.buy, 1, .limit, 100, 10, 10⟩])],
         [(1, ⟨.buy, 100, some 0⟩), (2, ⟨.sell, 100, some 0⟩)], 3⟩).state.bids =
      [(100, [⟨.buy, 1, .limit, 100, 10, 5⟩])] ∧
    (Optimized.matchOrders
        ⟨[(100, [⟨.sell, 2, .limit, 100, 5, 5⟩])],
         [(100, [⟨.buy, 1, .limit, 100, 10, 10⟩])],
         [(1, ⟨.buy, 100, some 0⟩), (2, ⟨.sell, 100, some 0⟩)], 3⟩).state.asks =
      [] := by
  decide

/-- **C4** — counterexample.  Crossing a resting-style bid 5\@105 (id 1)
against ask 5\@100 (id 2) in the optimized `matchOrders` produces the one
trade whose buy leg carries price 105 and sell leg price 100: the two legs
are not identical, and the buy leg does not carry the resting ask's
price 100, refuting the claim that both legs always carry the identical
(resting) price. -/
theorem C4_trade_legs_carry_distinct_prices :
    (Optimized.matchOrders
        ⟨[(100, [⟨.sell, 2, .limit, 100, 5, 5⟩])],
         [(105, [⟨.buy, 1, .limit, 105, 5, 5⟩])],
         [(1, ⟨.buy, 105, some 0⟩), (2, ⟨.sell, 100, some 0⟩)], 3⟩).trades =
      [⟨⟨1, 105, 5⟩, ⟨2, 100, 5⟩⟩] ∧
    ∃ t ∈ (Optimized.matchOrders
        ⟨[(100, [⟨.sell, 2, .limit, 100, 5, 5⟩])],
         [(105, [⟨.buy, 1, .limit, 105, 5, 5⟩])],
         [(1, ⟨.buy, 105, some 0⟩), (2, ⟨.sell, 100, some 0⟩)], 3⟩).trades,
      t.buy.price ≠ t.sell.price := by
  decide

/-- **C10**: `add_market` never reaches the `Overfill` branch of
`Order::fill` — every call returns `.ok`, for every book, side and
quantity, because each executed quantity is the min of the market order's
unfilled quantity and the resting order's remaining quantity. -/
theorem C10_add_market_never_overfills (b : OrderBook) (side : Side) (qty : Nat) :
    ∃ r, b.add_market side qty = .ok r :=
  ⟨_, add_market_eq b side qty⟩

/-- **C4 (amended)**: every trade produced by `add_market` carries the
identical price on both legs, namely the price of the price level the
resting order sat in (the resting order's price).  The optimized crossing
procedure instead records the bid's limit price on the buy leg and the
ask's limit price on the sell leg, so its legs differ whenever the matched
orders' prices differ (see the counterexample theorem). -/
theorem C4_amended_market_trade_price (b : OrderBook) (side : Side) (qty : Nat)
    (ts : List Trade) (b' : OrderBook)
    (h : b.add_market side qty = .ok (ts, b')) :
    ∀ t ∈ ts, t.buy.price = t.sell.price ∧
      ∃ pl ∈ b.opposing side, t.buy.price = pl.1 ∧
        restingLegId side t ∈ pl.2.map (·.id) := by
  by_cases hq : qty = 0
  · rw [OrderBook.add_market, if_pos hq] at h
    obtain ⟨h1, h2⟩ := Prod.mk.injEq .. ▸ Except.ok.inj h
    simp [← h1]
  · obtain ⟨hts, _, _, _, _, _⟩ := add_market_ok b side qty ts b' hq h
    subst hts
    intro t ht
    obtain ⟨_, _, pl, hpl, h2, h3, h5⟩ :=
      runBook_trades side b.nextOrderId qty (b.opposing side) t ht
    exact ⟨h2.trans h3.symm, pl, hpl, h2, h5⟩

/-- **C4 (amended)** — witness at a concrete input: buy market 3 against
resting ask 5\@100 (id 1). -/
theorem C4_amended_market_trade_price_witness :
    (Trade.mk ⟨2, 100, 3⟩ ⟨1, 100, 3⟩).buy.price =
      (Trade.mk ⟨2, 100, 3⟩ ⟨1, 100, 3⟩).sell.price ∧
    ∃ pl ∈ (OrderBook.mk [(100, [⟨.sell, 1, .limit, some 100, 5, 5⟩])] []
        [(1, ⟨.sell, 100⟩)] 2).opposing .buy,
      (Trade.mk ⟨2, 100, 3⟩ ⟨1, 100, 3⟩).buy.price = pl.1 ∧
      restingLegId .buy (Trade.mk ⟨2, 100, 3⟩ ⟨1, 100, 3⟩) ∈ pl.2.map (·.id) :=
  C4_amended_market_trade_price
    (OrderBook.mk [(100, [⟨.sell, 1, .limit, some 100, 5, 5⟩])] []
      [(1, ⟨.sell, 100⟩)] 2) .buy 3
    [Trade.mk ⟨2, 100, 3⟩ ⟨1, 100, 3⟩]
    (OrderBook.mk [(100, [⟨.sell, 1, .limit, some 100, 5, 2⟩])] []
      [(1, ⟨.sell, 100⟩)] 3)
    rfl (Trade.mk ⟨2, 100, 3⟩ ⟨1, 100, 3⟩) (by decide)

/-- **C3**: quantity conservation.  For a book whose resting and indexed
ids are distinct and below the id counter (true of every book reachable
through the API), any `add_market` call satisfies: every trade's two legs
carry the same quantity; the trades sum to at most the requested quantity
(the market order's own conservation); the trades carrying a resting
order's id sum to at most that order's remaining quantity; the invariant
`remaining ≤ initial` for all resting orders is preserved; and every trade
of the optimized crossing loop also carries equal leg quantities. -/
theorem C3_quantity_conservation (b : OrderBook) (side : Side) (qty : Nat)
    (ts : List Trade) (b' : OrderBook)
    (hnd : b.NodupIds) (hfr : b.FreshIds)
    (h : b.add_market side qty = .ok (ts, b')) :
    (∀ t ∈ ts, t.buy.qty = t.sell.qty) ∧
    sumQty ts ≤ qty ∧
    (∀ pl ∈ b.bids ++ b.asks, ∀ o ∈ pl.2, tradeQtyFor o.id ts ≤ o.remainingQty) ∧
    ((∀ pl ∈ b.bids ++ b.asks, ∀ o ∈ pl.2, o.remainingQty ≤ o.initialQty) →
      ∀ pl ∈ b'.bids ++ b'.asks, ∀ o ∈ pl.2, o.remainingQty ≤ o.initialQty) ∧
    (∀ (fuel : Nat) (s : Optimized.State) (t : Trade),
      t ∈ (Optimized.matchLoop fuel [] s).trades → t.buy.qty = t.sell.qty) := by
  have hopt : ∀ (fuel : Nat) (s : Optimized.State) (t : Trade),
      t ∈ (Optimized.matchLoop fuel [] s).trades → t.buy.qty = t.sell.qty :=
    fun fuel s t ht => Optimized.matchLoop_qty_legs fuel [] s (by simp) t ht
  by_cases hq : qty = 0
  · rw [OrderBook.add_market, if_pos hq] at h
    obtain ⟨h1, h2⟩ := Prod.mk.injEq .. ▸ Except.ok.inj h
    subst h2
    refine ⟨by simp [← h1], by simp [← h1, sumQty], ?_, fun hwf => hwf, hopt⟩
    intro pl _ o _
    simp [← h1]
  · obtain ⟨hts, hopp, hbuy, hsell, _, _⟩ := add_market_ok b side qty ts b' hq h
    have hrnd : (idsOf b.bids ++ idsOf b.asks).Nodup := hnd.1
    have hdisjBA : (idsOf b.bids).Disjoint (idsOf b.asks) :=
      (List.nodup_append.mp hrnd).2.2
    have hfr' : ∀ x ∈ idsOf b.bids ++ idsOf b.asks, x < b.nextOrderId :=
      fun x hx => hfr x (List.mem_append_left _ hx)
    have hmid : b.nextOrderId ∉ idsOf (b.opposing side) := by
      cases side with
      | buy => exact fun hmem =>
          lt_irrefl _ (hfr' _ (List.mem_append_right _ hmem))
      | sell => exact fun hmem =>
          lt_irrefl _ (hfr' _ (List.mem_append_left _ hmem))
    have hndm : (idsOf (b.opposing side)).Nodup := by
      cases side with
      | buy => exact (List.nodup_append.mp hrnd).2.1
      | sell => exact (List.nodup_append.mp hrnd).1
    subst hts
    have hz : ∀ x, x ≠ b.nextOrderId → x ∉ idsOf (b.opposing side) →
        tradeQtyFor x (runBook side b.nextOrderId qty (b.opposing side)).1 = 0 := by
      intro x hxm hxo
      refine tradeQtyFor_eq_zero fun t ht => ?_
      obtain ⟨_, h2, pl, hpl, _, _, h5⟩ :=
        runBook_trades side b.nextOrderId qty (b.opposing side) t ht
      rcases leg_ids_cases side t h2 h5 with ⟨hb, hs⟩ | ⟨hb, hs⟩
      · exact ⟨fun hx => hxm (hx.symm.trans hb), fun hx => hxo (mem_idsOf hpl (hx ▸ hs))⟩
      · exact ⟨fun hx => hxo (mem_idsOf hpl (hx ▸ hb)), fun hx => hxm (hx.symm.trans hs)⟩
    have hbound := runBook_bound side b.nextOrderId qty (b.opposing side) hndm hmid
    refine ⟨fun t ht => (runBook_trades side b.nextOrderId qty (b.opposing side) t ht).1,
      Nat.le.intro (runBook_qty side b.nextOrderId qty (b.opposing side)), ?_, ?_, hopt⟩
    · intro pl hpl o ho
      have hxlt : o.id ∈ idsOf b.bids ++ idsOf b.asks := by
        rcases List.mem_append.mp hpl with hb | hb
        · exact List.mem_append_left _ (mem_idsOf hb (List.mem_map_of_mem _ ho))
        · exact List.mem_append_right _ (mem_idsOf hb (List.mem_map_of_mem _ ho))
      have hxne : o.id ≠ b.nextOrderId := Nat.ne_of_lt (hfr' _ hxlt)
      cases side with
      | buy =>
        rcases List.mem_append.mp hpl with hmb | hma
        · rw [hz o.id hxne
            (fun hmem => hdisjBA (mem_idsOf hmb (List.mem_map_of_mem _ ho)) hmem)]
          exact Nat.zero_le _
        · exact hbound pl hma o ho
      | sell =>
        rcases List.mem_append.mp hpl with hmb | hma
        · exact hbound pl hmb o ho
        · rw [hz o.id hxne
            (fun hmem => hdisjBA hmem (mem_idsOf hma (List.mem_map_of_mem _ ho)))]
          exact Nat.zero_le _
    · intro hwf pl' hpl' o' ho'
      have hords := runBook_orders side b.nextOrderId qty (b.opposing side)
      cases side with
      | buy =>
        rw [hbuy rfl] at hpl'  -- does nothing to asks part; see below
        rcases List.mem_append.mp hpl' with hmb | hma
        · exact hwf pl' (List.mem_append_left _ (hbuy rfl ▸ hmb)) o' ho'
        · have hma' : pl' ∈ (runBook .buy b.nextOrderId qty (b.opposing .buy)).2.2.1 :=
            hopp ▸ hma
          obtain ⟨pl, hpl, o, ho, h1, h2⟩ := hords pl' hma' o' ho'
          exact h1 ▸ le_trans h2 (hwf pl (List.mem_append_right _ hpl) o ho)
      | sell =>
        rcases List.mem_append.mp hpl' with hmb | hma
        · have hmb' : pl' ∈ (runBook .sell b.nextOrderId qty (b.opposing .sell)).2.2.1 :=
            hopp ▸ hmb
          obtain ⟨pl, hpl, o, ho, h1, h2⟩ := hords pl' hmb' o' ho'
          exact h1 ▸ le_trans h2 (hwf pl (List.mem_append_left _ hpl) o ho)
        · exact hwf pl' (List.mem_append_right _ (hsell rfl ▸ hma)) o' ho'

/-- **C3** — witness at a concrete input: buy market 3 against resting
ask 5\@100 (id 1). -/
theorem C3_quantity_conservation_witness :
    (∀ t ∈ [(⟨⟨2, 100, 3⟩, ⟨1, 100, 3⟩⟩ : Trade)], t.buy.qty = t.sell.qty) ∧
    sumQty [(⟨⟨2, 100, 3⟩, ⟨1, 100, 3⟩⟩ : Trade)] ≤ 3 ∧
    (∀ pl ∈ (OrderBook.mk [(100, [⟨.sell, 1, .limit, some 100, 5, 5⟩])] []
          [(1, ⟨.sell, 100⟩)] 2).bids ++
        (OrderBook.mk [(100, [⟨.sell, 1, .limit, some 100, 5, 5⟩])] []
          [(1, ⟨.sell, 100⟩)] 2).asks, ∀ o ∈ pl.2,
      tradeQtyFor o.id [(⟨⟨2, 100, 3⟩, ⟨1, 100, 3⟩⟩ : Trade)] ≤ o.remainingQty) ∧
    ((∀ pl ∈ (OrderBook.mk [(100, [⟨.sell, 1, .limit, some 100, 5, 5⟩])] []
          [(1, ⟨.sell, 100⟩)] 2).bids ++
        (OrderBook.mk [(100, [⟨.sell, 1, .limit, some 100, 5, 5⟩])] []
          [(1, ⟨.sell, 100⟩)] 2).asks, ∀ o ∈ pl.2, o.remainingQty ≤ o.initialQty) →
      ∀ pl ∈ (OrderBook.mk [(100, [⟨.sell, 1, .limit, some 100, 5, 2⟩])] []
          [(1, ⟨.sell, 100⟩)] 3).bids ++
        (OrderBook.mk [(100, [⟨.sell, 1, .limit, some 100, 5, 2⟩])] []
          [(1, ⟨.sell, 100⟩)] 3).asks, ∀ o ∈ pl.2, o.remainingQty ≤ o.initialQty) ∧
    (∀ (fuel : Nat) (s : Optimized.State) (t : Trade),
      t ∈ (Optimized.matchLoop fuel [] s).trades → t.buy.qty = t.sell.qty) :=
  C3_quantity_conservation
    (OrderBook.mk [(100, [⟨.sell, 1, .limit, some 100, 5, 5⟩])] []
      [(1, ⟨.sell, 100⟩)] 2) .buy 3
    [⟨⟨2, 100, 3⟩, ⟨1, 100, 3⟩⟩]
    (OrderBook.mk [(100, [⟨.sell, 1, .limit, some 100, 5, 2⟩])] []
      [(1, ⟨.sell, 100⟩)] 3)
    (by decide) (by decide) rfl

/-- **C6**: FIFO fairness of the working fill path.  If order `A` rests
ahead of order `B` at the same price level and an `add_market` call
produces any trade for `B`, then `A` was fully filled by that same call:
its id is left neither in the ledger nor in the index.  (Limit orders
generate no fills at all in `src/OrderBook.cpp`, since `matchOrders` has
an empty body, so `add_market` is the only source of incoming
liquidity.) -/
theorem C6_fifo_fairness (b : OrderBook) (side : Side) (qty : Nat)
    (ts : List Trade) (b' : OrderBook) (p : Nat) (l₁ l₂ l₃ : Level) (A B : Order)
    (hnd : b.NodupIds)
    (h : b.add_market side qty = .ok (ts, b'))
    (hlvl : (p, l₁ ++ A :: (l₂ ++ B :: l₃)) ∈ b.opposing side)
    (hB : ∃ t ∈ ts, restingLegId side t = B.id) :
    A.id ∉ b'.restingIds ∧ A.id ∉ b'.indexIds := by
  by_cases hq : qty = 0
  · rw [OrderBook.add_market, if_pos hq] at h
    obtain ⟨h1, _⟩ := Prod.mk.injEq .. ▸ Except.ok.inj h
    rw [← h1] at hB
    simp at hB
  · obtain ⟨hts, hopp, hbuy, hsell, hidx, _⟩ := add_market_ok b side qty ts b' hq h
    have hrnd : (idsOf b.bids ++ idsOf b.asks).Nodup := hnd.1
    have hdisjBA : (idsOf b.bids).Disjoint (idsOf b.asks) :=
      (List.nodup_append.mp hrnd).2.2
    have hndm : (idsOf (b.opposing side)).Nodup := by
      cases side with
      | buy => exact (List.nodup_append.mp hrnd).2.1
      | sell => exact (List.nodup_append.mp hrnd).1
    have hixnd : (b.index.map (·.1)).Nodup := hnd.2
    subst hts
    have hArm : A.id ∈ (runBook side b.nextOrderId qty (b.opposing side)).2.2.2 :=
      runBook_fifo side b.nextOrderId qty (b.opposing side) hndm p l₁ l₂ l₃ A B hlvl hB
    have hAm : A.id ∈ idsOf (b.opposing side) :=
      mem_idsOf hlvl (List.mem_map_of_mem _ (by simp))
    have hperm := runBook_ids_perm side b.nextOrderId qty (b.opposing side)
    have hnd2 : ((runBook side b.nextOrderId qty (b.opposing side)).2.2.2 ++
        idsOf (runBook side b.nextOrderId qty (b.opposing side)).2.2.1).Nodup :=
      hperm.symm.nodup hndm
    have hAnotm' : A.id ∉ idsOf (runBook side b.nextOrderId qty (b.opposing side)).2.2.1 :=
      fun hmem => (List.nodup_append.mp hnd2).2.2 hArm hmem
    have hAidx : A.id ∉ b'.indexIds := by
      show A.id ∉ b'.index.map (·.1)
      rw [hidx]
      exact foldl_erase_not_mem _ b.index A.id hixnd hArm
    refine ⟨?_, hAidx⟩
    cases side with
    | buy =>
      intro hmem
      rcases List.mem_append.mp hmem with hmb | hma
      · rw [hbuy rfl] at hmb
        exact hdisjBA hmb hAm
      · exact hAnotm' (hopp ▸ hma)
    | sell =>
      intro hmem
      rcases List.mem_append.mp hmem with hmb | hma
      · exact hAnotm' (hopp ▸ hmb)
      · rw [hsell rfl] at hma
        exact hdisjBA hAm hma

/-- **C6** — witness at a concrete input: asks 5\@100 (id 1, first) and
5\@100 (id 2, second); a buy market for 8 fills id 1 fully and id 2
partially, and id 1 is gone from ledger and index. -/
theorem C6_fifo_fairness_witness :
    (1 : Nat) ∉ (OrderBook.mk [(100, [⟨.sell, 2, .limit, some 100, 5, 2⟩])] []
      [(2, ⟨.sell, 100⟩)] 4).restingIds ∧
    (1 : Nat) ∉ (OrderBook.mk [(100, [⟨.sell, 2, .limit, some 100, 5, 2⟩])] []
      [(2, ⟨.sell, 100⟩)] 4).indexIds :=
  C6_fifo_fairness
    (OrderBook.mk
      [(100, [⟨.sell, 1, .limit, some 100, 5, 5⟩, ⟨.sell, 2, .limit, some 100, 5, 5⟩])]
      [] [(1, ⟨.sell, 100⟩), (2, ⟨.sell, 100⟩)] 3) .buy 8
    [⟨⟨3, 100, 5⟩, ⟨1, 100, 5⟩⟩, ⟨⟨3, 100, 3⟩, ⟨2, 100, 3⟩⟩]
    (OrderBook.mk [(100, [⟨.sell, 2, .limit, some 100, 5, 2⟩])] []
      [(2, ⟨.sell, 100⟩)] 4)
    100 [] [] [] ⟨.sell, 1, .limit, some 100, 5, 5⟩ ⟨.sell, 2, .limit, some 100, 5, 5⟩
    (by decide) rfl (by decide) (by decide)

/-- **C7**: a market order whose quantity exceeds the total opposing
liquidity consumes it all: the call returns `.ok` (no error), the trades
sum exactly to the available quantity, the opposing side is left empty,
the same side is untouched, and the market order's synthetic id is left
neither in the ledger nor in the index (the unfilled remainder is simply
discarded). -/
theorem C7_market_exhausts_liquidity (b : OrderBook) (side : Side) (qty : Nat)
    (hfr : b.FreshIds) (hq : totalQty (b.opposing side) < qty) :
    ∃ ts b', b.add_market side qty = .ok (ts, b') ∧
      sumQty ts = totalQty (b.opposing side) ∧
      b'.opposing side = [] ∧
      (∀ t ∈ ts, t.buy.qty = t.sell.qty) ∧
      (side = Side.buy → b'.bids = b.bids) ∧
      (side = Side.sell → b'.asks = b.asks) ∧
      b.nextOrderId ∉ b'.restingIds ∧
      b.nextOrderId ∉ b'.indexIds ∧
      b'.nextOrderId = b.nextOrderId + 1 := by
  have hqne : qty ≠ 0 := by omega
  rcases hok : b.add_market side qty with e | r
  · rw [add_market_eq] at hok
    cases hok
  rcases r with ⟨ts, b'⟩
  obtain ⟨hts, hopp, hbuy, hsell, hidx, hnid⟩ := add_market_ok b side qty ts b' hqne hok
  obtain ⟨hq', hempty, hrm⟩ := runBook_exhaust side b.nextOrderId qty (b.opposing side) hq
  have hsum : sumQty ts = totalQty (b.opposing side) := by
    have h1 := runBook_qty side b.nextOrderId qty (b.opposing side)
    rw [← hts, hq'] at h1
    omega
  refine ⟨ts, b', rfl, hsum, hopp.trans hempty,
    fun t ht => (runBook_trades side b.nextOrderId qty (b.opposing side) t (hts ▸ ht)).1,
    hbuy, hsell, ?_, ?_, hnid⟩
  · cases side with
    | buy =>
      intro hmem
      rcases List.mem_append.mp hmem with hmb | hma
      · rw [hbuy rfl] at hmb
        exact lt_irrefl _ (hfr _ (List.mem_append_left _ (List.mem_append_left _ hmb)))
      · have hasks : b'.asks = [] := hopp.trans hempty
        rw [hasks] at hma
        simp [idsOf] at hma
    | sell =>
      intro hmem
      rcases List.mem_append.mp hmem with hmb | hma
      · have hbids : b'.bids = [] := hopp.trans hempty
        rw [hbids] at hmb
        simp [idsOf] at hmb
      · rw [hsell rfl] at hma
        exact lt_irrefl _ (hfr _ (List.mem_append_left _ (List.mem_append_right _ hma)))
  · intro hmem
    have hsub := foldl_erase_keys_sublist
      (runBook side b.nextOrderId qty (b.opposing side)).2.2.2 b.index
    rw [← hidx] at hsub
    exact lt_irrefl _ (hfr _ (List.mem_append_right _ (hsub.subset hmem)))

/-- **C7** — witness at a concrete input: a buy market for 100 against a
single resting ask of 5\@100. -/
theorem C7_market_exhausts_liquidity_witness :
    ∃ ts b',
      (OrderBook.mk [(100, [⟨.sell, 1, .limit, some 100, 5, 5⟩])] []
        [(1, ⟨.sell, 100⟩)] 2).add_market .buy 100 = .ok (ts, b') ∧
      sumQty ts = totalQty ((OrderBook.mk [(100, [⟨.sell, 1, .limit, some 100, 5, 5⟩])] []
        [(1, ⟨.sell, 100⟩)] 2).opposing .buy) ∧
      b'.opposing .buy = [] ∧
      (∀ t ∈ ts, t.buy.qty = t.sell.qty) ∧
      (Side.buy = Side.buy → b'.bids =
        (OrderBook.mk [(100, [⟨.sell, 1, .limit, some 100, 5, 5⟩])] []
          [(1, ⟨.sell, 100⟩)] 2).bids) ∧
      (Side.buy = Side.sell → b'.asks =
        (OrderBook.mk [(100, [⟨.sell, 1, .limit, some 100, 5, 5⟩])] []
          [(1, ⟨.sell, 100⟩)] 2).asks) ∧
      (OrderBook.mk [(100, [⟨.sell, 1, .limit, some 100, 5, 5⟩])] []
        [(1, ⟨.sell, 100⟩)] 2).nextOrderId ∉ b'.restingIds ∧
      (OrderBook.mk [(100, [⟨.sell, 1, .limit, some 100, 5, 5⟩])] []
        [(1, ⟨.sell, 100⟩)] 2).nextOrderId ∉ b'.indexIds ∧
      b'.nextOrderId = (OrderBook.mk [(100, [⟨.sell, 1, .limit, some 100, 5, 5⟩])] []
        [(1, ⟨.sell, 100⟩)] 2).nextOrderId + 1 :=
  C7_market_exhausts_liquidity
    (OrderBook.mk [(100, [⟨.sell, 1, .limit, some 100, 5, 5⟩])] []
      [(1, ⟨.sell, 100⟩)] 2) .buy 100 (by decide) (by decide)
